import Mathlib

/-!
# Shallow embedding of `regular_spatial_hash`

A Lean model of the Rust crate's core: the three tiling coordinate systems
(`src/coordinates.rs`), the Bresenham rasterizer (`src/lines.rs`) and the
bucketed container (`src/lib.rs`).  Machine floats (`f32`) are idealized as
exact rationals; `i32` as `Int`.  Rust's `f32::round` (round half away from
zero) is modelled explicitly.  The hasher (`RandomState`) is modelled as an
arbitrary function from the written key pair to a machine word, carried as a
field of the container, since every coordinate's `Hash` impl writes exactly
its canonical 2D key.
-/

namespace SpatialHashRepo

/-- The `f32` value of `(3.0f32).sqrt()`: 14529495 / 2^23 (the IEEE single
nearest to √3), used by the hex and triangular conversions. -/
def root3 : ℚ := 14529495 / 8388608

/-- Rust `f32::round`: nearest integer, halves away from zero. -/
def rustRound (q : ℚ) : ℤ := if 0 ≤ q then ⌊q + 1/2⌋ else ⌈q - 1/2⌉

/-! ## `coordinates.rs`: HexAxial -/

/-- `HexAxial<f32>`: fractional axial hex coordinate. -/
structure HexAxialQ where
  q : ℚ
  r : ℚ
deriving DecidableEq

/-- `HexAxial<i32>`. -/
structure HexAxial where
  q : ℤ
  r : ℤ
deriving DecidableEq

/-- `HexAxial::<f32>::new(x, y, circumradius)`. -/
def HexAxialQ.new (x y circumradius : ℚ) : HexAxialQ :=
  { q := (x * root3 / 3 - y / 3) / circumradius
    r := (2 * y / 3) / circumradius }

/-- `HexAxial::<f32>::s()`: the derived third component. -/
def HexAxialQ.s (h : HexAxialQ) : ℚ := -h.q - h.r

/-- `HexAxial::<i32>::s()`: the derived third component. -/
def HexAxial.s (h : HexAxial) : ℤ := -h.q - h.r

/-- `HexAxial::<f32>::round()`: round q, r, s independently, then recompute
the component whose rounding residual is largest from the other two. -/
def HexAxialQ.round (h : HexAxialQ) : HexAxial :=
  let q := rustRound h.q
  let r := rustRound h.r
  let og_s := h.s
  let s := rustRound og_s
  let q_diff := |(q : ℚ) - h.q|
  let r_diff := |(r : ℚ) - h.r|
  let s_diff := |(s : ℚ) - og_s|
  if q_diff > r_diff ∧ q_diff > s_diff then { q := -r - s, r := r }
  else if r_diff > s_diff then { q := q, r := -q - s }
  else { q := q, r := r }

/-- `HexAxial::<i32>::neighbor_indices()`. -/
def HexAxial.neighborIndices : List (ℤ × ℤ) :=
  [(1, 0), (1, -1), (0, -1), (-1, 0), (-1, 1), (0, 1)]

/-- `RegularCoord::one_ring` for `HexAxial<i32>`. -/
def HexAxial.one_ring (h : HexAxial) : List HexAxial :=
  HexAxial.neighborIndices.map fun d => { q := h.q + d.1, r := h.r + d.2 }

/-- `RegularCoord::from_euclidean` for `HexAxial<i32>`. -/
def HexAxial.from_euclidean (x y circumradius : ℚ) : HexAxial :=
  (HexAxialQ.new x y circumradius).round

/-! ## `coordinates.rs`: Euclidean -/

/-- `Euclidean<i32>`. -/
structure Euclidean where
  x : ℤ
  y : ℤ
deriving DecidableEq

/-- `Euclidean::<i32>::neighbor_indices()`: the Moore neighborhood. -/
def Euclidean.neighborIndices : List (ℤ × ℤ) :=
  [(-1, -1), (-1, 0), (-1, 1), (0, -1), (0, 1), (1, -1), (1, 0), (1, 1)]

/-- `RegularCoord::one_ring` for `Euclidean<i32>`. -/
def Euclidean.one_ring (e : Euclidean) : List Euclidean :=
  Euclidean.neighborIndices.map fun d => { x := e.x + d.1, y := e.y + d.2 }

/-- `RegularCoord::from_euclidean` for `Euclidean<i32>`: floor of each
coordinate divided by the side length. -/
def Euclidean.from_euclidean (x y side_len : ℚ) : Euclidean :=
  { x := ⌊x / side_len⌋, y := ⌊y / side_len⌋ }

/-! ## `coordinates.rs`: TriCoord -/

/-- `TriCoord<i32>`: barycentric-like triangular coordinate. -/
structure TriCoord where
  s : ℤ
  t : ℤ
  u : ℤ
deriving DecidableEq

/-- `TriCoord::points_up`: the cell points up iff the components sum to 2
(down is 1). -/
def TriCoord.points_up (c : TriCoord) : Bool := c.s + c.t + c.u = 2

/-- `TriCoord::new(x, y, side_len)`: the triangular `from_continuous`
conversion.  (The source also `debug_assert!`s that the sum is 1 or 2.) -/
def TriCoord.new (x y side_len : ℚ) : TriCoord :=
  let yr3d3 := y * root3 / 3
  let s := ⌈(x - yr3d3) / side_len⌉
  let t := ⌊(y * root3 * 2 / 3) / side_len⌋
  let t := t + 1
  let u := ⌈(-x - yr3d3) / side_len⌉
  { s := s, t := t, u := u }

/-- `TriCoord::canon2d`: the injective 2D key `(2s + parity, t)`. -/
def TriCoord.canon2d (c : TriCoord) : ℤ × ℤ :=
  let sum := c.s + c.t + c.u
  (2 * c.s + if sum = 1 then 0 else 1, c.t)

/-- `TriCoord::neighbor_indices(up)`: the two orientation-dependent
12-neighbor offset tables. -/
def TriCoord.neighborIndices : Bool → List (ℤ × ℤ × ℤ)
  | true =>
    [(-1, 0, 0), (0, -1, 0), (0, 0, -1),
     (-1, 1, 0), (0, -1, 1), (1, 0, -1),
     (1, -1, 0), (0, 1, -1), (-1, 0, 1),
     (1, -1, -1), (-1, 1, -1), (-1, -1, 1)]
  | false =>
    [(1, 0, 0), (0, 1, 0), (0, 0, 1),
     (-1, 1, 0), (0, -1, 1), (1, 0, -1),
     (1, -1, 0), (0, 1, -1), (-1, 0, 1),
     (-1, 1, 1), (1, -1, 1), (1, 1, -1)]

/-- `RegularCoord::one_ring` for `TriCoord<i32>`. -/
def TriCoord.one_ring (c : TriCoord) : List TriCoord :=
  (TriCoord.neighborIndices c.points_up).map fun d =>
    { s := c.s + d.1, t := c.t + d.2.1, u := c.u + d.2.2 }

/-- `RegularCoord::from_euclidean` for `TriCoord<i32>`. -/
def TriCoord.from_euclidean (x y side_len : ℚ) : TriCoord :=
  TriCoord.new x y side_len

/-! ## `lines.rs`: Bresenham

The Rust iterator chains a single starting cell with a `map_while` over
`0..=max_iters` whose closure mutates `(cx, cy, error)`.  The closure is
modelled by `bresStep` (returning `none` where the closure ends the
iteration) and the bounded `map_while` by the fuel recursion `bresLoop`
with fuel `max_iters + 1`, the number of closure invocations available. -/

/-- One invocation of the closure inside `bresenham`'s `map_while`: either
the iteration ends (`none`) or the state advances and the new cell is
emitted. -/
def bresStep (x1 y1 sx sy dx dy : ℤ) (st : ℤ × ℤ × ℤ) : Option (ℤ × ℤ × ℤ) :=
  let cx := st.1
  let cy := st.2.1
  let error := st.2.2
  if cx = x1 ∧ cy = y1 then none
  else
    let e2 := 2 * error
    if dy ≤ e2 then
      if cx = x1 then none
      else
        let error2 := error + dy
        let cx2 := cx + sx
        if e2 ≤ dx then
          if cy = y1 then none
          else some (cx2, cy + sy, error2 + dx)
        else some (cx2, cy, error2)
    else
      if e2 ≤ dx then
        if cy = y1 then none
        else some (cx, cy + sy, error + dx)
      else some (cx, cy, error)

/-- The `map_while` over `0..=max_iters`: at most `fuel` closure calls,
stopping at the first `none`. -/
def bresLoop (x1 y1 sx sy dx dy : ℤ) : ℕ → ℤ × ℤ × ℤ → List (ℤ × ℤ)
  | 0, _ => []
  | fuel + 1, st =>
    match bresStep x1 y1 sx sy dx dy st with
    | none => []
    | some st2 => (st2.1, st2.2.1) :: bresLoop x1 y1 sx sy dx dy fuel st2

/-- `lines::bresenham(p0, p1)`: the full emitted cell sequence. -/
def bresenham (p0 p1 : ℤ × ℤ) : List (ℤ × ℤ) :=
  let x0 := p0.1
  let y0 := p0.2
  let x1 := p1.1
  let y1 := p1.2
  let dx := |x1 - x0|
  let sx : ℤ := if x0 < x1 then 1 else -1
  let dy := -|y1 - y0|
  let sy : ℤ := if y0 < y1 then 1 else -1
  let error := dx + dy
  let max_iters := max |x1 - x0| |y1 - y0|
  (x0, y0) :: bresLoop x1 y1 sx sy dx dy (max_iters.toNat + 1) (x0, y0, error)

/-! ## `lib.rs`: the container -/

/-- `CoordinateKind`. -/
inductive CoordinateKind where
  | Cube (side_len : ℚ)
  | Hex (circumradius : ℚ)
  | Tri (side_len : ℚ)
deriving DecidableEq

/-- The configured scale parameter is positive. -/
def CoordinateKind.scalePos : CoordinateKind → Prop
  | .Cube side_len => 0 < side_len
  | .Hex circumradius => 0 < circumradius
  | .Tri side_len => 0 < side_len

instance (k : CoordinateKind) : Decidable k.scalePos := by
  cases k <;> (simp [CoordinateKind.scalePos]; infer_instance)

/-- `SpatialHash<T, N, S>`: `n` buckets, each an exact map from the
canonical 2D key to the stored list.  `hf` models the build-hasher state
`S`: the word `finish()` returns after the coordinate's `Hash` impl wrote
its canonical key pair (all three coordinate types write exactly that
pair).  A missing key maps to `none` (a `BTreeMap` entry absent). -/
structure SpatialHash (T : Type) where
  n : ℕ
  hf : ℤ × ℤ → ℕ
  kind : CoordinateKind
  data : ℕ → ℤ × ℤ → Option (List T)

namespace SpatialHash

variable {T : Type}

/-- `SpatialHash::coord_idx` on an already-canonical key: `finish() % N`. -/
def coordIdx (h : SpatialHash T) (key : ℤ × ℤ) : ℕ := h.hf key % h.n

/-- `SpatialHash::idx(x, y)`: dispatch on the tiling kind, producing the
bucket index and the canonical exact-match key. -/
def idx (h : SpatialHash T) (x y : ℚ) : ℕ × (ℤ × ℤ) :=
  match h.kind with
  | .Cube side_len =>
    let ec := Euclidean.from_euclidean x y side_len
    (h.coordIdx (ec.x, ec.y), (ec.x, ec.y))
  | .Tri side_len =>
    let ec := TriCoord.from_euclidean x y side_len
    (h.coordIdx ec.canon2d, ec.canon2d)
  | .Hex circumradius =>
    let ec := HexAxial.from_euclidean x y circumradius
    (h.coordIdx (ec.q, ec.r), (ec.q, ec.r))

/-- Replace the list stored at bucket `i`, key `key`. -/
def setCell (h : SpatialHash T) (i : ℕ) (key : ℤ × ℤ) (l : List T) : SpatialHash T :=
  { h with data := fun j k => if j = i ∧ k = key then some l else h.data j k }

/-- `self.data[i].entry(key).or_insert_with(Vec::new).push(t)`. -/
def insertVal (h : SpatialHash T) (i : ℕ) (key : ℤ × ℤ) (t : T) : SpatialHash T :=
  h.setCell i key ((h.data i key).getD [] ++ [t])

/-- `SpatialHash::add(x, y, t)` (the state after; the returned slice is
the updated list at the cell). -/
def add (h : SpatialHash T) (x y : ℚ) (t : T) : SpatialHash T :=
  let p := h.idx x y
  h.insertVal p.1 p.2 t

/-- `SpatialHash::query(x, y)`: the list at the exact cell, empty if the
entry is missing. -/
def query (h : SpatialHash T) (x y : ℚ) : List T :=
  let p := h.idx x y
  (h.data p.1 p.2).getD []

/-- `SpatialHash::same_bin`. -/
def same_bin (h : SpatialHash T) (x y a b : ℚ) : Bool :=
  (h.idx x y).2 = (h.idx a b).2

/-- `SpatialHash::clear`. -/
def clear (h : SpatialHash T) : SpatialHash T :=
  { h with data := fun _ _ => none }

/-- `SpatialHash::add_line_bresenham`: both endpoints go through `idx`
(the kind-dispatched conversion); every cell of the Bresenham path over
the two resulting integer keys receives the value, bucketed by hashing
the cell pair as a square-grid coordinate. -/
def add_line_bresenham (h : SpatialHash T) (l_start l_end : ℚ × ℚ) (t : T) :
    SpatialHash T :=
  let k0 := (h.idx l_start.1 l_start.2).2
  let k1 := (h.idx l_end.1 l_end.2).2
  (bresenham k0 k1).foldl (fun acc k => acc.insertVal (acc.coordIdx k) k t) h

/-- `SpatialHash::add_with_conflict_resolution`: `none` models the fatal
`assert_eq!(o.get().len(), 1)` when the occupied cell holds more than one
value; otherwise the result state.  An occupied cell's single value `v`
is popped and replaced by `resolve t v`. -/
def add_with_conflict_resolution (h : SpatialHash T) (x y : ℚ) (t : T)
    (resolve : T → T → T) : Option (SpatialHash T) :=
  let p := h.idx x y
  match h.data p.1 p.2 with
  | none => some (h.setCell p.1 p.2 [t])
  | some v =>
    match v with
    | [v0] => some (h.setCell p.1 p.2 [resolve t v0])
    | _ => none

/-- The neighbor-ring keys of the cell containing `(x, y)`, in the order
the source's `one_ring()` array yields them (the exact cell excluded). -/
def ringKeys (h : SpatialHash T) (x y : ℚ) : List (ℤ × ℤ) :=
  match h.kind with
  | .Cube side_len =>
    ((Euclidean.from_euclidean x y side_len).one_ring).map fun e => (e.x, e.y)
  | .Tri side_len =>
    ((TriCoord.from_euclidean x y side_len).one_ring).map fun c => c.canon2d
  | .Hex circumradius =>
    ((HexAxial.from_euclidean x y circumradius).one_ring).map fun a => (a.q, a.r)

/-- `SpatialHash::query_one_ring`: per-cell views over
`one_ring().chain(once(center))`, skipping missing entries. -/
def query_one_ring (h : SpatialHash T) (x y : ℚ) : List (List T) :=
  match h.kind with
  | .Cube side_len =>
    let ax := Euclidean.from_euclidean x y side_len
    (ax.one_ring ++ [ax]).filterMap fun hax =>
      h.data (h.coordIdx (hax.x, hax.y)) (hax.x, hax.y)
  | .Tri side_len =>
    let ax := TriCoord.from_euclidean x y side_len
    (ax.one_ring ++ [ax]).filterMap fun hax =>
      h.data (h.coordIdx hax.canon2d) hax.canon2d
  | .Hex circumradius =>
    let ax := HexAxial.from_euclidean x y circumradius
    (ax.one_ring ++ [ax]).filterMap fun hax =>
      h.data (h.coordIdx (hax.q, hax.r)) (hax.q, hax.r)

/-- The per-cell work shared by every arm of `add_one_ring`: push `t`
into the cell's list and record the callback invocation `(key, updated
list)`. -/
def visitCells (h : SpatialHash T) (keys : List (ℤ × ℤ)) (t : T) :
    SpatialHash T × List ((ℤ × ℤ) × List T) :=
  keys.foldl
    (fun acc k =>
      let i := acc.1.coordIdx k
      let newList := (acc.1.data i k).getD [] ++ [t]
      (acc.1.insertVal i k t, acc.2 ++ [(k, newList)]))
    (h, [])

/-- `SpatialHash::add_one_ring`: duplicates `t` into every ring neighbor
and then the exact cell (the source iterates `one_ring().chain(once(ax))`),
returning the final state and the callback trace in invocation order. -/
def add_one_ring (h : SpatialHash T) (x y : ℚ) (t : T) :
    SpatialHash T × List ((ℤ × ℤ) × List T) :=
  match h.kind with
  | .Cube side_len =>
    let ax := Euclidean.from_euclidean x y side_len
    h.visitCells ((ax.one_ring ++ [ax]).map fun e => (e.x, e.y)) t
  | .Tri side_len =>
    let ax := TriCoord.from_euclidean x y side_len
    h.visitCells ((ax.one_ring ++ [ax]).map fun c => c.canon2d) t
  | .Hex circumradius =>
    let ax := HexAxial.from_euclidean x y circumradius
    h.visitCells ((ax.one_ring ++ [ax]).map fun a => (a.q, a.r)) t

end SpatialHash

/-! ## Theorems -/

/-- `idx` only looks at the configuration, never at the stored data. -/
theorem SpatialHash.idx_data_update {T : Type} (h : SpatialHash T)
    (d : ℕ → ℤ × ℤ → Option (List T)) (x y : ℚ) :
    ({ h with data := d } : SpatialHash T).idx x y = h.idx x y := by
  cases h with
  | mk n hf kind data => cases kind <;> rfl

/-- C1: For every tiling kind with positive scale parameter, every
continuous point `(x, y)` and every value `v`, after `add(x, y, v)` a
subsequent `query(x, y)` returns a list containing `v`. -/
theorem spatialHash_add_query_roundtrip {T : Type} (h : SpatialHash T)
    (x y : ℚ) (v : T) (hscale : h.kind.scalePos) :
    v ∈ (h.add x y v).query x y := by
  unfold SpatialHash.add SpatialHash.query SpatialHash.insertVal SpatialHash.setCell
  rw [SpatialHash.idx_data_update]
  simp

/-- Concrete instantiation of C1: a cube container with unit side. -/
def cubeUnitHash : SpatialHash ℕ :=
  { n := 256, hf := fun _ => 0, kind := .Cube 1, data := fun _ _ => none }

/-- Witness for C1 at the cube container, point (1/2, 1/2), value 7. -/
theorem spatialHash_add_query_roundtrip_witness :
    cubeUnitHash.kind.scalePos ∧
      7 ∈ (cubeUnitHash.add (1/2) (1/2) 7).query (1/2) (1/2) :=
  ⟨by norm_num [cubeUnitHash, CoordinateKind.scalePos],
   spatialHash_add_query_roundtrip cubeUnitHash (1/2) (1/2) 7
     (by norm_num [cubeUnitHash, CoordinateKind.scalePos])⟩

/-- C3: `HexAxial::round` rounds q, r and s = −q−r independently, then the
returned coordinate keeps the two components whose rounding residuals are
not the largest (recomputing the discarded one from the other two), and
its components always satisfy q + r + s = 0 (with s the derived third
component of the result). -/
theorem hexAxial_round_discards_largest_residual (h : HexAxialQ) :
    h.round.q + h.round.r + h.round.s = 0 ∧
      ((h.round = { q := -(rustRound h.r) - rustRound h.s, r := rustRound h.r } ∧
          |(rustRound h.q : ℚ) - h.q| ≥ |(rustRound h.r : ℚ) - h.r| ∧
          |(rustRound h.q : ℚ) - h.q| ≥ |(rustRound h.s : ℚ) - h.s|) ∨
        (h.round = { q := rustRound h.q, r := -(rustRound h.q) - rustRound h.s } ∧
          |(rustRound h.r : ℚ) - h.r| ≥ |(rustRound h.q : ℚ) - h.q| ∧
          |(rustRound h.r : ℚ) - h.r| ≥ |(rustRound h.s : ℚ) - h.s|) ∨
        (h.round = { q := rustRound h.q, r := rustRound h.r } ∧
          |(rustRound h.s : ℚ) - h.s| ≥ |(rustRound h.q : ℚ) - h.q| ∧
          |(rustRound h.s : ℚ) - h.s| ≥ |(rustRound h.r : ℚ) - h.r|)) := by
  unfold HexAxialQ.round
  dsimp only
  split_ifs with h1 h2
  · exact ⟨by dsimp [HexAxial.s]; ring,
      Or.inl ⟨rfl, le_of_lt h1.1, le_of_lt h1.2⟩⟩
  · push_neg at h1
    refine ⟨by dsimp [HexAxial.s]; ring, Or.inr (Or.inl ⟨rfl, ?_, le_of_lt h2⟩)⟩
    rcases le_or_lt |(rustRound h.q : ℚ) - h.q| |(rustRound h.r : ℚ) - h.r| with hle | hlt
    · exact hle
    · exact le_of_lt (lt_of_le_of_lt (h1 hlt) h2)
  · push_neg at h1 h2
    refine ⟨by dsimp [HexAxial.s]; ring, Or.inr (Or.inr ⟨rfl, ?_, h2⟩)⟩
    rcases le_or_lt |(rustRound h.q : ℚ) - h.q| |(rustRound h.r : ℚ) - h.r| with hle | hlt
    · exact le_trans hle h2
    · exact h1 hlt

/-- C5: `one_ring` returns exactly 8 (square) / 6 (hex) / 12 (triangular)
pairwise-distinct cells, none equal to the input cell. -/
theorem one_ring_count_distinct :
    (∀ e : Euclidean, e.one_ring.length = 8 ∧ e.one_ring.Nodup ∧ e ∉ e.one_ring) ∧
      (∀ a : HexAxial, a.one_ring.length = 6 ∧ a.one_ring.Nodup ∧ a ∉ a.one_ring) ∧
      (∀ c : TriCoord, c.one_ring.length = 12 ∧ c.one_ring.Nodup ∧ c ∉ c.one_ring) := by
  refine ⟨fun e => ⟨rfl, ?_, ?_⟩, fun a => ⟨rfl, ?_, ?_⟩, fun c => ⟨?_, ?_, ?_⟩⟩
  · refine List.Nodup.map ?_ (by decide)
    intro d1 d2 hd
    simp only [Euclidean.mk.injEq] at hd
    exact Prod.ext (by omega) (by omega)
  · obtain ⟨ex, ey⟩ := e
    simp only [Euclidean.one_ring, List.mem_map, Euclidean.mk.injEq, Euclidean.neighborIndices]
    rintro ⟨d, hd, hx, hy⟩
    fin_cases hd <;> omega
  · refine List.Nodup.map ?_ (by decide)
    intro d1 d2 hd
    simp only [HexAxial.mk.injEq] at hd
    exact Prod.ext (by omega) (by omega)
  · obtain ⟨aq, ar⟩ := a
    simp only [HexAxial.one_ring, List.mem_map, HexAxial.mk.injEq, HexAxial.neighborIndices]
    rintro ⟨d, hd, hx, hy⟩
    fin_cases hd <;> omega
  · cases hup : c.points_up <;> simp [TriCoord.one_ring, hup, TriCoord.neighborIndices]
  · refine List.Nodup.map ?_ ?_
    · intro d1 d2 hd
      simp only [TriCoord.mk.injEq] at hd
      refine Prod.ext (by omega) (Prod.ext (by omega) (by omega))
    · cases c.points_up <;> decide
  · obtain ⟨cs, ct, cu⟩ := c
    cases hup : TriCoord.points_up ⟨cs, ct, cu⟩ <;>
      · simp only [TriCoord.one_ring, hup, TriCoord.neighborIndices, List.mem_map,
          TriCoord.mk.injEq]
        rintro ⟨d, hd, hs, ht, hu⟩
        fin_cases hd <;> simp_all

/-- C6: adjacency symmetry for the square and hex tilings: every neighbor
of a cell has the cell among its own neighbors. -/
theorem one_ring_symm_square_hex :
    (∀ c n : Euclidean, n ∈ c.one_ring → c ∈ n.one_ring) ∧
      (∀ c n : HexAxial, n ∈ c.one_ring → c ∈ n.one_ring) := by
  constructor
  · intro c n hn
    obtain ⟨cx, cy⟩ := c
    simp only [Euclidean.one_ring, List.mem_map] at hn ⊢
    obtain ⟨d, hd, rfl⟩ := hn
    refine ⟨(-d.1, -d.2), ?_, by simp only [Euclidean.mk.injEq]; constructor <;> ring⟩
    fin_cases hd <;> decide
  · intro c n hn
    obtain ⟨cq, cr⟩ := c
    simp only [HexAxial.one_ring, List.mem_map] at hn ⊢
    obtain ⟨d, hd, rfl⟩ := hn
    refine ⟨(-d.1, -d.2), ?_, by simp only [HexAxial.mk.injEq]; constructor <;> ring⟩
    fin_cases hd <;> decide

/-- Witness for C6: (1,1) neighbors (0,0) on the square grid and (1,0)
neighbors (0,0) on the hex grid, both symmetrically. -/
theorem one_ring_symm_square_hex_witness :
    ((⟨1, 1⟩ : Euclidean) ∈ (⟨0, 0⟩ : Euclidean).one_ring ∧
        (⟨0, 0⟩ : Euclidean) ∈ (⟨1, 1⟩ : Euclidean).one_ring) ∧
      ((⟨1, 0⟩ : HexAxial) ∈ (⟨0, 0⟩ : HexAxial).one_ring ∧
        (⟨0, 0⟩ : HexAxial) ∈ (⟨1, 0⟩ : HexAxial).one_ring) :=
  ⟨⟨by decide, one_ring_symm_square_hex.1 ⟨0, 0⟩ ⟨1, 1⟩ (by decide)⟩,
   ⟨by decide, one_ring_symm_square_hex.2 ⟨0, 0⟩ ⟨1, 0⟩ (by decide)⟩⟩

/-- C9: for a triangular coordinate whose components sum to 1 or 2, the
up-orientation offset table is applied exactly when the sum is 2 and the
down table when it is 1, and every one of the 12 ring neighbors again has
component sum 1 or 2. -/
theorem triCoord_one_ring_sum_invariant (c : TriCoord)
    (hc : c.s + c.t + c.u = 1 ∨ c.s + c.t + c.u = 2) :
    (c.s + c.t + c.u = 2 →
        c.one_ring = (TriCoord.neighborIndices true).map fun d =>
          { s := c.s + d.1, t := c.t + d.2.1, u := c.u + d.2.2 }) ∧
      (c.s + c.t + c.u = 1 →
        c.one_ring = (TriCoord.neighborIndices false).map fun d =>
          { s := c.s + d.1, t := c.t + d.2.1, u := c.u + d.2.2 }) ∧
      ∀ nb ∈ c.one_ring, nb.s + nb.t + nb.u = 1 ∨ nb.s + nb.t + nb.u = 2 := by
  obtain ⟨cs, ct, cu⟩ := c
  dsimp only at hc
  refine ⟨fun h2 => ?_, fun h1 => ?_, fun nb hnb => ?_⟩
  · dsimp only at h2
    have hup : TriCoord.points_up ⟨cs, ct, cu⟩ = true := by
      simp [TriCoord.points_up]
      omega
    simp [TriCoord.one_ring, hup]
  · dsimp only at h1
    have hup : TriCoord.points_up ⟨cs, ct, cu⟩ = false := by
      simp [TriCoord.points_up]
      omega
    simp [TriCoord.one_ring, hup]
  · simp only [TriCoord.one_ring, List.mem_map] at hnb
    obtain ⟨d, hd, rfl⟩ := hnb
    rcases hc with h1 | h2
    · have hup : TriCoord.points_up ⟨cs, ct, cu⟩ = false := by
        simp [TriCoord.points_up]
        omega
      rw [hup] at hd
      fin_cases hd <;> dsimp <;> omega
    · have hup : TriCoord.points_up ⟨cs, ct, cu⟩ = true := by
        simp [TriCoord.points_up]
        omega
      rw [hup] at hd
      fin_cases hd <;> dsimp <;> omega

/-- Witness for C9 at the down-pointing cell (0, 1, 0). -/
theorem triCoord_one_ring_sum_invariant_witness :
    ((0 : ℤ) + 1 + 0 = 1 ∨ (0 : ℤ) + 1 + 0 = 2) ∧
      ∀ nb ∈ (⟨0, 1, 0⟩ : TriCoord).one_ring,
        nb.s + nb.t + nb.u = 1 ∨ nb.s + nb.t + nb.u = 2 :=
  ⟨by decide, (triCoord_one_ring_sum_invariant ⟨0, 1, 0⟩ (by decide)).2.2⟩

/-- C7: `add_with_conflict_resolution` inserts directly into an empty cell;
combines with the unique existing value via `resolve` (the single result
replacing the slot); fatally asserts on a cell holding two or more values;
and calling it twice on one cell with resolver `max` leaves exactly one
value, the max of the two inputs. -/
theorem add_with_conflict_resolution_spec {T : Type} :
    (∀ (h : SpatialHash T) (x y : ℚ) (t : T) (resolve : T → T → T),
        h.data (h.idx x y).1 (h.idx x y).2 = none →
        ∃ h2, h.add_with_conflict_resolution x y t resolve = some h2 ∧
          h2.data (h.idx x y).1 (h.idx x y).2 = some [t]) ∧
      (∀ (h : SpatialHash T) (x y : ℚ) (t v0 : T) (resolve : T → T → T),
        h.data (h.idx x y).1 (h.idx x y).2 = some [v0] →
        ∃ h2, h.add_with_conflict_resolution x y t resolve = some h2 ∧
          h2.data (h.idx x y).1 (h.idx x y).2 = some [resolve t v0]) ∧
      (∀ (h : SpatialHash T) (x y : ℚ) (t : T) (resolve : T → T → T)
          (l : List T),
        h.data (h.idx x y).1 (h.idx x y).2 = some l → 2 ≤ l.length →
        h.add_with_conflict_resolution x y t resolve = none) ∧
      ∀ (h : SpatialHash ℤ) (x y : ℚ) (a b : ℤ),
        h.data (h.idx x y).1 (h.idx x y).2 = none →
        ∃ h1 h2, h.add_with_conflict_resolution x y a max = some h1 ∧
          h1.add_with_conflict_resolution x y b max = some h2 ∧
          h2.data (h.idx x y).1 (h.idx x y).2 = some [max a b] := by
  have vacant : ∀ {S : Type} (h : SpatialHash S) (x y : ℚ) (t : S)
      (resolve : S → S → S),
      h.data (h.idx x y).1 (h.idx x y).2 = none →
      ∃ h2, h.add_with_conflict_resolution x y t resolve = some h2 ∧
        h2.data (h.idx x y).1 (h.idx x y).2 = some [t] ∧
        h2 = h.setCell (h.idx x y).1 (h.idx x y).2 [t] := by
    intro S h x y t resolve hnone
    refine ⟨h.setCell (h.idx x y).1 (h.idx x y).2 [t], ?_,
      by simp [SpatialHash.setCell], rfl⟩
    unfold SpatialHash.add_with_conflict_resolution
    dsimp only
    rw [hnone]
  have single : ∀ {S : Type} (h : SpatialHash S) (x y : ℚ) (t v0 : S)
      (resolve : S → S → S),
      h.data (h.idx x y).1 (h.idx x y).2 = some [v0] →
      ∃ h2, h.add_with_conflict_resolution x y t resolve = some h2 ∧
        h2.data (h.idx x y).1 (h.idx x y).2 = some [resolve t v0] := by
    intro S h x y t v0 resolve hone
    refine ⟨h.setCell (h.idx x y).1 (h.idx x y).2 [resolve t v0], ?_,
      by simp [SpatialHash.setCell]⟩
    unfold SpatialHash.add_with_conflict_resolution
    dsimp only
    rw [hone]
  refine ⟨fun h x y t resolve hnone => ?_, fun h x y t v0 resolve hone =>
    single h x y t v0 resolve hone, fun h x y t resolve l hl hlen => ?_,
    fun h x y a b hnone => ?_⟩
  · obtain ⟨h2, hstep, hcell, _⟩ := vacant h x y t resolve hnone
    exact ⟨h2, hstep, hcell⟩
  · unfold SpatialHash.add_with_conflict_resolution
    dsimp only
    rw [hl]
    match l, hlen with
    | v0 :: v1 :: rest, _ => rfl
  · obtain ⟨h1, hstep1, hcell1, rfl⟩ := vacant h x y a max hnone
    have hidx :
        (h.setCell (h.idx x y).1 (h.idx x y).2 [a]).idx x y = h.idx x y :=
      SpatialHash.idx_data_update h _ x y
    obtain ⟨h2, hstep2, hcell2⟩ :=
      single (h.setCell (h.idx x y).1 (h.idx x y).2 [a]) x y b a max
        (by rw [hidx]; simp [SpatialHash.setCell])
    refine ⟨_, _, hstep1, hstep2, ?_⟩
    rw [hidx] at hcell2
    rw [hcell2, max_comm b a]

/-- Concrete instantiation for C7's witness: the empty integer container. -/
def emptyIntHash : SpatialHash ℤ :=
  { n := 256, hf := fun _ => 0, kind := .Cube 1, data := fun _ _ => none }

/-- Witness for C7: the two-add `max` scenario at the origin cell. -/
theorem add_with_conflict_resolution_spec_witness :
    emptyIntHash.data (emptyIntHash.idx 0 0).1 (emptyIntHash.idx 0 0).2 = none ∧
      ∃ h1 h2, emptyIntHash.add_with_conflict_resolution 0 0 3 max = some h1 ∧
        h1.add_with_conflict_resolution 0 0 5 max = some h2 ∧
        h2.data (emptyIntHash.idx 0 0).1 (emptyIntHash.idx 0 0).2 = some [max 3 5] :=
  ⟨rfl, (@add_with_conflict_resolution_spec ℤ).2.2.2 emptyIntHash 0 0 3 5 rfl⟩

/-- `filterMap` over a one-element list is `Option.toList` of the value. -/
theorem filterMap_singleton_toList {A B : Type} (f : A → Option B) (a : A) :
    List.filterMap f [a] = (f a).toList := by
  cases hfa : f a <;> simp [List.filterMap_cons, hfa]

/-- The callback trace of `visitCells` lists exactly the visited keys, in
order. -/
theorem SpatialHash.visitCells_fold_keys {T : Type} (t : T) :
    ∀ (keys : List (ℤ × ℤ)) (p : SpatialHash T × List ((ℤ × ℤ) × List T)),
      ((keys.foldl
          (fun acc k =>
            let i := acc.1.coordIdx k
            let newList := (acc.1.data i k).getD [] ++ [t]
            (acc.1.insertVal i k t, acc.2 ++ [(k, newList)]))
          p).2).map Prod.fst = p.2.map Prod.fst ++ keys := by
  intro keys
  induction keys with
  | nil => intro p; simp
  | cons k ks ih =>
    intro p
    rw [List.foldl_cons, ih]
    simp

/-- The callback trace of `visitCells` is exactly the visited key list. -/
theorem SpatialHash.visitCells_keys {T : Type} (h : SpatialHash T)
    (keys : List (ℤ × ℤ)) (t : T) :
    ((h.visitCells keys t).2).map Prod.fst = keys := by
  unfold SpatialHash.visitCells
  rw [SpatialHash.visitCells_fold_keys]
  simp

/-- C10: `query_one_ring` yields the ring neighbors' views (missing cells
skipped) strictly before the exact cell's view, and `add_one_ring` touches
(pushes into, and invokes the callback on) the exact cell last, after every
ring neighbor, for all three tilings. -/
theorem one_ring_center_visited_last {T : Type} (h : SpatialHash T) (x y : ℚ)
    (t : T) :
    h.query_one_ring x y =
      (h.ringKeys x y).filterMap (fun k => h.data (h.coordIdx k) k) ++
        (h.data (h.idx x y).1 (h.idx x y).2).toList ∧
      ((h.add_one_ring x y t).2).map Prod.fst =
        h.ringKeys x y ++ [(h.idx x y).2] := by
  obtain ⟨n, hf, kind, data⟩ := h
  cases kind <;> constructor <;>
    first
      | (simp only [SpatialHash.query_one_ring, SpatialHash.ringKeys,
           SpatialHash.idx, SpatialHash.coordIdx]
         rw [List.filterMap_append, List.filterMap_map, filterMap_singleton_toList]
         rfl)
      | (simp only [SpatialHash.add_one_ring, SpatialHash.ringKeys,
           SpatialHash.idx]
         rw [SpatialHash.visitCells_keys]
         simp)

/-- Folding the per-cell Bresenham insertion over a key list leaves the
value reachable at every key of the list (and preserves it anywhere it
already was). -/
theorem SpatialHash.mem_foldl_insertVal {T : Type} (t : T) :
    ∀ (l : List (ℤ × ℤ)) (h : SpatialHash T) (k : ℤ × ℤ),
      k ∈ l ∨ t ∈ (h.data (h.coordIdx k) k).getD [] →
      t ∈ ((l.foldl (fun acc k2 => acc.insertVal (acc.coordIdx k2) k2 t) h).data
        (h.coordIdx k) k).getD [] := by
  intro l
  induction l with
  | nil =>
    intro h k hk
    rcases hk with hk | hk
    · exact absurd hk (List.not_mem_nil k)
    · simpa using hk
  | cons k2 l ih =>
    intro h k hk
    rw [List.foldl_cons]
    refine ih (h.insertVal (h.coordIdx k2) k2 t) k ?_
    rcases hk with hk | hk
    · rcases List.mem_cons.mp hk with rfl | hk2
      · right
        simp [SpatialHash.insertVal, SpatialHash.setCell, SpatialHash.coordIdx]
      · left
        exact hk2
    · right
      simp only [SpatialHash.insertVal, SpatialHash.setCell, SpatialHash.coordIdx]
      split_ifs with hcond
      · simp
      · simpa [SpatialHash.coordIdx] using hk

/-- C4 (amended): `add_line_bresenham` converts both endpoints with the
container's kind-dispatched `idx` conversion (square grid only for a Cube
container), rasterizes the segment between the two resulting integer keys
via Bresenham, and inserts the value into every cell of that path. -/
theorem add_line_bresenham_inserts_along_idx_path {T : Type}
    (h : SpatialHash T) (l_start l_end : ℚ × ℚ) (t : T) (k : ℤ × ℤ)
    (hk : k ∈ bresenham (h.idx l_start.1 l_start.2).2 (h.idx l_end.1 l_end.2).2) :
    t ∈ ((h.add_line_bresenham l_start l_end t).data (h.coordIdx k) k).getD [] := by
  unfold SpatialHash.add_line_bresenham
  dsimp only
  exact SpatialHash.mem_foldl_insertVal t _ h k (Or.inl hk)

/-- A one-bucket cube container used to instantiate the line theorems. -/
def lineProbeHash : SpatialHash ℕ :=
  { n := 1, hf := fun _ => 0, kind := .Cube 1, data := fun _ _ => none }

/-- Witness for C4's amended theorem: the cell (1, 1) lies on the Bresenham
path from (0, 0) to (5/2, 1) in the unit cube container and receives the
value. -/
theorem add_line_bresenham_inserts_along_idx_path_witness :
    ((1 : ℤ), (1 : ℤ)) ∈
        bresenham (lineProbeHash.idx 0 0).2 (lineProbeHash.idx (5/2) 1).2 ∧
      7 ∈ ((lineProbeHash.add_line_bresenham (0, 0) (5/2, 1) 7).data
        (lineProbeHash.coordIdx (1, 1)) (1, 1)).getD [] := by
  have h0 : (lineProbeHash.idx 0 0).2 = (0, 0) := by
    norm_num [lineProbeHash, SpatialHash.idx, Euclidean.from_euclidean]
  have h1 : (lineProbeHash.idx (5/2) 1).2 = (2, 1) := by
    norm_num [lineProbeHash, SpatialHash.idx, Euclidean.from_euclidean]
  have hmem : ((1 : ℤ), (1 : ℤ)) ∈
      bresenham (lineProbeHash.idx 0 0).2 (lineProbeHash.idx (5/2) 1).2 := by
    rw [h0, h1]
    decide
  exact ⟨hmem, add_line_bresenham_inserts_along_idx_path lineProbeHash (0, 0)
    (5/2, 1) 7 (1, 1) hmem⟩

/-- A one-bucket hex container refuting the square-grid reading of
`add_line_bresenham`. -/
def hexProbeHash : SpatialHash ℕ :=
  { n := 1, hf := fun _ => 0, kind := .Hex 1, data := fun _ _ => none }

/-- C4 counterexample: in a hex container with circumradius 1, the
degenerate segment from (0, 2) to itself has square-grid cell (0, 2) as its
entire square-grid Bresenham path, yet after `add_line_bresenham` that cell
holds nothing: the endpoints were converted with the hex conversion (cell
(-1, 1)), not the square-grid one. -/
theorem add_line_bresenham_square_grid_counterexample :
    bresenham (0, 2) (0, 2) = [(0, 2)] ∧
      Euclidean.from_euclidean 0 2 1 = ⟨0, 2⟩ ∧
      (hexProbeHash.add_line_bresenham (0, 2) (0, 2) 7).data
        (hexProbeHash.coordIdx (0, 2)) (0, 2) = none ∧
      (hexProbeHash.add_line_bresenham (0, 2) (0, 2) 7).data
        (hexProbeHash.coordIdx (-1, 1)) (-1, 1) = some [7] := by
  have hhex : (hexProbeHash.idx 0 2).2 = (-1, 1) := by
    norm_num [hexProbeHash, SpatialHash.idx, HexAxial.from_euclidean,
      HexAxialQ.new, HexAxialQ.round, HexAxialQ.s, rustRound, root3,
      Int.ceil_neg]
  have hstate : hexProbeHash.add_line_bresenham (0, 2) (0, 2) 7 =
      hexProbeHash.insertVal (hexProbeHash.coordIdx (-1, 1)) (-1, 1) 7 := by
    unfold SpatialHash.add_line_bresenham
    dsimp only
    rw [hhex]
    rfl
  refine ⟨by decide, by norm_num [Euclidean.from_euclidean], ?_, ?_⟩ <;>
    rw [hstate] <;>
      simp [SpatialHash.insertVal, SpatialHash.setCell, SpatialHash.coordIdx,
        hexProbeHash]

/-! ### Bresenham loop analysis

The loop state after `u` remaining x-steps and `v` remaining y-steps is
`(x1 - sx*u, y1 - sy*v, A - B - v*A + u*B)` where `A = |Δx|`, `B = |Δy|`:
the error accumulator is an affine function of the remaining steps.  The
quantity `D = 2*(v*A - u*B)` (twice the signed deviation from the ideal
line) decides both branch conditions; when `B ≤ A` the invariant
`D ≤ 2*A - B` forces an x-step every iteration, and symmetrically when
`A ≤ B` the invariant `A - 2*B ≤ D` forces a y-step every iteration. -/

/-- The closure ends when the target is reached. -/
theorem bresStep_none_of_done (x1 y1 sx sy dx dy cx cy er : ℤ)
    (h1 : cx = x1) (h2 : cy = y1) :
    bresStep x1 y1 sx sy dx dy (cx, cy, er) = none := by
  unfold bresStep
  dsimp only
  rw [if_pos ⟨h1, h2⟩]

/-- A diagonal step: both branch conditions hold and neither axis is
exhausted. -/
theorem bresStep_some_both (x1 y1 sx sy dx dy cx cy er : ℤ)
    (hcx : cx ≠ x1) (hx : dy ≤ 2 * er) (hdx : 2 * er ≤ dx) (hcy : cy ≠ y1) :
    bresStep x1 y1 sx sy dx dy (cx, cy, er) =
      some (cx + sx, cy + sy, er + dy + dx) := by
  unfold bresStep
  dsimp only
  rw [if_neg (fun hc => hcx hc.1), if_pos hx, if_neg hcx, if_pos hdx, if_neg hcy]

/-- An x-only step. -/
theorem bresStep_some_xonly (x1 y1 sx sy dx dy cx cy er : ℤ)
    (hcx : cx ≠ x1) (hx : dy ≤ 2 * er) (hdx : ¬2 * er ≤ dx) :
    bresStep x1 y1 sx sy dx dy (cx, cy, er) = some (cx + sx, cy, er + dy) := by
  unfold bresStep
  dsimp only
  rw [if_neg (fun hc => hcx hc.1), if_pos hx, if_neg hcx, if_neg hdx]

/-- A y-only step. -/
theorem bresStep_some_yonly (x1 y1 sx sy dx dy cx cy er : ℤ)
    (hx : ¬dy ≤ 2 * er) (hdx : 2 * er ≤ dx) (hcy : cy ≠ y1) :
    bresStep x1 y1 sx sy dx dy (cx, cy, er) = some (cx, cy + sy, er + dx) := by
  unfold bresStep
  dsimp only
  rw [if_neg (fun hc => hcy hc.2), if_neg hx, if_pos hdx, if_neg hcy]

/-- Unfolding the loop when the closure ends. -/
theorem bresLoop_succ_none (x1 y1 sx sy dx dy : ℤ) (fuel : ℕ) (st : ℤ × ℤ × ℤ)
    (hstep : bresStep x1 y1 sx sy dx dy st = none) :
    bresLoop x1 y1 sx sy dx dy (fuel + 1) st = [] := by
  simp only [bresLoop, hstep]

/-- Unfolding the loop when the closure advances. -/
theorem bresLoop_succ_some (x1 y1 sx sy dx dy : ℤ) (fuel : ℕ)
    (st st2 : ℤ × ℤ × ℤ)
    (hstep : bresStep x1 y1 sx sy dx dy st = some st2) :
    bresLoop x1 y1 sx sy dx dy (fuel + 1) st =
      (st2.1, st2.2.1) :: bresLoop x1 y1 sx sy dx dy fuel st2 := by
  simp only [bresLoop, hstep]

/-- With `B ≤ A`, a state with no remaining x-steps that satisfies the
major-x invariant has no remaining y-steps either. -/
theorem majorX_vanish (A B w : ℤ) (hB : 0 ≤ B) (hAB : B ≤ A) (h0w : 0 ≤ w)
    (hwB : w ≤ B) (hD : 2 * (w * A) ≤ 2 * A - B) : w = 0 := by
  by_contra hw
  have hw1 : 1 ≤ w := by omega
  have hA : (0 : ℤ) ≤ A := le_trans hB hAB
  have hwA : A ≤ w * A := le_mul_of_one_le_left hA hw1
  linarith

/-- With `A ≤ B`, a state with no remaining y-steps that satisfies the
major-y invariant has no remaining x-steps either. -/
theorem majorY_vanish (A B w : ℤ) (hA : 0 ≤ A) (hBA : A ≤ B) (h0w : 0 ≤ w)
    (hwA : w ≤ A) (hD : A - 2 * B ≤ -(2 * (w * B))) : w = 0 := by
  by_contra hw
  have hw1 : 1 ≤ w := by omega
  have hB : (0 : ℤ) ≤ B := le_trans hA hBA
  have hwB : B ≤ w * B := le_mul_of_one_le_left hB hw1
  linarith

/-- `getLast?` skips the head of a list with a nonempty tail. -/
theorem getLast?_cons_of_ne_nil {α : Type} (a : α) {l : List α} (h : l ≠ []) :
    (a :: l).getLast? = l.getLast? := by
  cases l with
  | nil => exact absurd rfl h
  | cons b l2 => exact List.getLast?_cons_cons

/-- Major-x case (`B ≤ A`): from the state with `u` remaining x-steps and
`v` remaining y-steps, the loop emits exactly `u` further cells, the last
being the endpoint. -/
theorem bresLoop_majorX (x1 y1 sx sy A B : ℤ) (hsx : sx = 1 ∨ sx = -1)
    (hsy : sy = 1 ∨ sy = -1) (hB : 0 ≤ B) (hAB : B ≤ A) :
    ∀ (fuel : ℕ) (u v : ℤ), 0 ≤ u → u ≤ A → 0 ≤ v → v ≤ B →
      2 * (v * A - u * B) ≤ 2 * A - B → u ≤ (fuel : ℤ) →
      (bresLoop x1 y1 sx sy A (-B) fuel
          (x1 - sx * u, y1 - sy * v, A - B - v * A + u * B)).length = u.toNat ∧
        (0 < u →
          (bresLoop x1 y1 sx sy A (-B) fuel
              (x1 - sx * u, y1 - sy * v, A - B - v * A + u * B)).getLast? =
            some (x1, y1)) := by
  intro fuel
  induction fuel with
  | zero =>
    intro u v h0u huA h0v hvB hD hfu
    have hu : u = 0 := by omega
    subst hu
    simp [bresLoop]
  | succ fuel ih =>
    intro u v h0u huA h0v hvB hD hfu
    by_cases hu0 : u = 0
    · subst hu0
      have hv0 : v = 0 := majorX_vanish A B v hB hAB h0v hvB (by linarith)
      subst hv0
      rw [bresLoop_succ_none _ _ _ _ _ _ _ _
        (bresStep_none_of_done _ _ _ _ _ _ _ _ _ (by ring) (by ring))]
      simp
    · have hu1 : 1 ≤ u := by omega
      have hcx : x1 - sx * u ≠ x1 := by rcases hsx with rfl | rfl <;> omega
      have hxcond : -B ≤ 2 * (A - B - v * A + u * B) := by linarith
      by_cases hyc : 2 * (A - B - v * A + u * B) ≤ A
      · have hv1 : 1 ≤ v := by
          by_contra hv0
          have hveq : v = 0 := by omega
          subst hveq
          have hBu : B ≤ u * B := le_mul_of_one_le_left hB hu1
          linarith
        have hcy : y1 - sy * v ≠ y1 := by rcases hsy with rfl | rfl <;> omega
        rw [bresLoop_succ_some _ _ _ _ _ _ _ _ _
          (bresStep_some_both x1 y1 sx sy A (-B) (x1 - sx * u) (y1 - sy * v)
            (A - B - v * A + u * B) hcx hxcond hyc hcy)]
        dsimp only
        have harg1 : x1 - sx * u + sx = x1 - sx * (u - 1) := by ring
        have harg2 : y1 - sy * v + sy = y1 - sy * (v - 1) := by ring
        have harg3 : A - B - v * A + u * B + -B + A =
            A - B - (v - 1) * A + (u - 1) * B := by ring
        rw [harg1, harg2, harg3]
        obtain ⟨ihlen, ihlast⟩ := ih (u - 1) (v - 1) (by omega) (by omega)
          (by omega) (by omega) (by linarith) (by omega)
        refine ⟨by rw [List.length_cons, ihlen]; omega, fun _ => ?_⟩
        by_cases hu2 : u = 1
        · subst hu2
          have hv2 : v - 1 = 0 := majorX_vanish A B (v - 1) hB hAB (by omega)
            (by omega) (by linarith)
          have hnil : bresLoop x1 y1 sx sy A (-B) fuel
              (x1 - sx * (1 - 1), y1 - sy * (v - 1),
                A - B - (v - 1) * A + (1 - 1) * B) = [] := by
            have := ihlen
            rwa [show ((1 : ℤ) - 1).toNat = 0 by omega,
              List.length_eq_zero] at this
          rw [hnil]
          simp only [List.getLast?_singleton, Option.some.injEq, Prod.mk.injEq]
          constructor
          · rw [show (1 : ℤ) - 1 = 0 by omega]
            ring
          · rw [hv2]
            ring
        · have hne : bresLoop x1 y1 sx sy A (-B) fuel
              (x1 - sx * (u - 1), y1 - sy * (v - 1),
                A - B - (v - 1) * A + (u - 1) * B) ≠ [] := by
            intro hnil
            rw [hnil] at ihlen
            simp at ihlen
            omega
          rw [getLast?_cons_of_ne_nil _ hne]
          exact ihlast (by omega)
      · have hstep := bresStep_some_xonly x1 y1 sx sy A (-B) (x1 - sx * u)
          (y1 - sy * v) (A - B - v * A + u * B) hcx hxcond hyc
        rw [bresLoop_succ_some _ _ _ _ _ _ _ _ _ hstep]
        dsimp only
        have harg1 : x1 - sx * u + sx = x1 - sx * (u - 1) := by ring
        have harg3 : A - B - v * A + u * B + -B =
            A - B - v * A + (u - 1) * B := by ring
        rw [harg1, harg3]
        obtain ⟨ihlen, ihlast⟩ := ih (u - 1) v (by omega) (by omega)
          (by omega) (by omega) (by linarith) (by omega)
        refine ⟨by rw [List.length_cons, ihlen]; omega, fun _ => ?_⟩
        by_cases hu2 : u = 1
        · subst hu2
          have hv2 : v = 0 := majorX_vanish A B v hB hAB (by omega)
            (by omega) (by linarith)
          have hnil : bresLoop x1 y1 sx sy A (-B) fuel
              (x1 - sx * (1 - 1), y1 - sy * v,
                A - B - v * A + (1 - 1) * B) = [] := by
            have := ihlen
            rwa [show ((1 : ℤ) - 1).toNat = 0 by omega,
              List.length_eq_zero] at this
          rw [hnil]
          simp only [List.getLast?_singleton, Option.some.injEq, Prod.mk.injEq]
          constructor
          · rw [show (1 : ℤ) - 1 = 0 by omega]
            ring
          · rw [hv2]
            ring
        · have hne : bresLoop x1 y1 sx sy A (-B) fuel
              (x1 - sx * (u - 1), y1 - sy * v,
                A - B - v * A + (u - 1) * B) ≠ [] := by
            intro hnil
            rw [hnil] at ihlen
            simp at ihlen
            omega
          rw [getLast?_cons_of_ne_nil _ hne]
          exact ihlast (by omega)

/-- Major-y case (`A ≤ B`): from the state with `u` remaining x-steps and
`v` remaining y-steps, the loop emits exactly `v` further cells, the last
being the endpoint. -/
theorem bresLoop_majorY (x1 y1 sx sy A B : ℤ) (hsx : sx = 1 ∨ sx = -1)
    (hsy : sy = 1 ∨ sy = -1) (hA : 0 ≤ A) (hBA : A ≤ B) :
    ∀ (fuel : ℕ) (u v : ℤ), 0 ≤ u → u ≤ A → 0 ≤ v → v ≤ B →
      A - 2 * B ≤ 2 * (v * A - u * B) → v ≤ (fuel : ℤ) →
      (bresLoop x1 y1 sx sy A (-B) fuel
          (x1 - sx * u, y1 - sy * v, A - B - v * A + u * B)).length = v.toNat ∧
        (0 < v →
          (bresLoop x1 y1 sx sy A (-B) fuel
              (x1 - sx * u, y1 - sy * v, A - B - v * A + u * B)).getLast? =
            some (x1, y1)) := by
  intro fuel
  induction fuel with
  | zero =>
    intro u v h0u huA h0v hvB hD hfu
    have hv : v = 0 := by omega
    subst hv
    simp [bresLoop]
  | succ fuel ih =>
    intro u v h0u huA h0v hvB hD hfu
    by_cases hv0 : v = 0
    · subst hv0
      have hu0 : u = 0 := majorY_vanish A B u hA hBA h0u huA (by linarith)
      subst hu0
      rw [bresLoop_succ_none _ _ _ _ _ _ _ _
        (bresStep_none_of_done _ _ _ _ _ _ _ _ _ (by ring) (by ring))]
      simp
    · have hv1 : 1 ≤ v := by omega
      have hcy : y1 - sy * v ≠ y1 := by rcases hsy with rfl | rfl <;> omega
      have hycond : 2 * (A - B - v * A + u * B) ≤ A := by linarith
      by_cases hxc : -B ≤ 2 * (A - B - v * A + u * B)
      · have hu1 : 1 ≤ u := by
          by_contra hu0
          have hueq : u = 0 := by omega
          subst hueq
          have hAv : A ≤ v * A := le_mul_of_one_le_left hA hv1
          linarith
        have hcx : x1 - sx * u ≠ x1 := by rcases hsx with rfl | rfl <;> omega
        rw [bresLoop_succ_some _ _ _ _ _ _ _ _ _
          (bresStep_some_both x1 y1 sx sy A (-B) (x1 - sx * u) (y1 - sy * v)
            (A - B - v * A + u * B) hcx hxc hycond hcy)]
        dsimp only
        have harg1 : x1 - sx * u + sx = x1 - sx * (u - 1) := by ring
        have harg2 : y1 - sy * v + sy = y1 - sy * (v - 1) := by ring
        have harg3 : A - B - v * A + u * B + -B + A =
            A - B - (v - 1) * A + (u - 1) * B := by ring
        rw [harg1, harg2, harg3]
        obtain ⟨ihlen, ihlast⟩ := ih (u - 1) (v - 1) (by omega) (by omega)
          (by omega) (by omega) (by linarith) (by omega)
        refine ⟨by rw [List.length_cons, ihlen]; omega, fun _ => ?_⟩
        by_cases hv2 : v = 1
        · subst hv2
          have hu2 : u - 1 = 0 := majorY_vanish A B (u - 1) hA hBA (by omega)
            (by omega) (by linarith)
          have hnil : bresLoop x1 y1 sx sy A (-B) fuel
              (x1 - sx * (u - 1), y1 - sy * (1 - 1),
                A - B - (1 - 1) * A + (u - 1) * B) = [] := by
            have := ihlen
            rwa [show ((1 : ℤ) - 1).toNat = 0 by omega,
              List.length_eq_zero] at this
          rw [hnil]
          simp only [List.getLast?_singleton, Option.some.injEq, Prod.mk.injEq]
          constructor
          · rw [hu2]
            ring
          · rw [show (1 : ℤ) - 1 = 0 by omega]
            ring
        · have hne : bresLoop x1 y1 sx sy A (-B) fuel
              (x1 - sx * (u - 1), y1 - sy * (v - 1),
                A - B - (v - 1) * A + (u - 1) * B) ≠ [] := by
            intro hnil
            rw [hnil] at ihlen
            simp at ihlen
            omega
          rw [getLast?_cons_of_ne_nil _ hne]
          exact ihlast (by omega)
      · have hstep := bresStep_some_yonly x1 y1 sx sy A (-B) (x1 - sx * u)
          (y1 - sy * v) (A - B - v * A + u * B) hxc hycond hcy
        rw [bresLoop_succ_some _ _ _ _ _ _ _ _ _ hstep]
        dsimp only
        have harg2 : y1 - sy * v + sy = y1 - sy * (v - 1) := by ring
        have harg3 : A - B - v * A + u * B + A =
            A - B - (v - 1) * A + u * B := by ring
        rw [harg2, harg3]
        obtain ⟨ihlen, ihlast⟩ := ih u (v - 1) (by omega) (by omega)
          (by omega) (by omega) (by linarith) (by omega)
        refine ⟨by rw [List.length_cons, ihlen]; omega, fun _ => ?_⟩
        by_cases hv2 : v = 1
        · subst hv2
          have hu2 : u = 0 := majorY_vanish A B u hA hBA (by omega)
            (by omega) (by linarith)
          have hnil : bresLoop x1 y1 sx sy A (-B) fuel
              (x1 - sx * u, y1 - sy * (1 - 1),
                A - B - (1 - 1) * A + u * B) = [] := by
            have := ihlen
            rwa [show ((1 : ℤ) - 1).toNat = 0 by omega,
              List.length_eq_zero] at this
          rw [hnil]
          simp only [List.getLast?_singleton, Option.some.injEq, Prod.mk.injEq]
          constructor
          · rw [hu2]
            ring
          · rw [show (1 : ℤ) - 1 = 0 by omega]
            ring
        · have hne : bresLoop x1 y1 sx sy A (-B) fuel
              (x1 - sx * u, y1 - sy * (v - 1),
                A - B - (v - 1) * A + u * B) ≠ [] := by
            intro hnil
            rw [hnil] at ihlen
            simp at ihlen
            omega
          rw [getLast?_cons_of_ne_nil _ hne]
          exact ihlast (by omega)

/-- C8: `bresenham((0,0),(5,2))` starts at (0,0), ends at (5,2), has at
most 6 cells, and consecutive cells differ by at most 1 per axis; in
general, for all integer endpoints, the sequence is finite with at most
`max(|Δx|,|Δy|) + 1` cells and runs from `p0` to `p1` inclusive. -/
theorem bresenham_path_spec :
    (bresenham (0, 0) (5, 2)).head? = some (0, 0) ∧
      (bresenham (0, 0) (5, 2)).getLast? = some (5, 2) ∧
      (bresenham (0, 0) (5, 2)).length ≤ 6 ∧
      List.Chain'
        (fun a b : ℤ × ℤ => (b.1 - a.1).natAbs ≤ 1 ∧ (b.2 - a.2).natAbs ≤ 1)
        (bresenham (0, 0) (5, 2)) ∧
      ∀ p0 p1 : ℤ × ℤ,
        (bresenham p0 p1).head? = some p0 ∧
          (bresenham p0 p1).getLast? = some p1 ∧
          (bresenham p0 p1).length ≤
            max (p1.1 - p0.1).natAbs (p1.2 - p0.2).natAbs + 1 := by
  have hconc : bresenham (0, 0) (5, 2) =
      [(0, 0), (1, 0), (2, 1), (3, 1), (4, 2), (5, 2)] := by decide
  refine ⟨by rw [hconc]; rfl, by rw [hconc]; rfl, by rw [hconc]; rfl, ?_, ?_⟩
  · rw [hconc]
    simp [List.chain'_cons]
  intro p0 p1
  obtain ⟨x0, y0⟩ := p0
  obtain ⟨x1, y1⟩ := p1
  have hxabs : (0 : ℤ) ≤ |x1 - x0| := abs_nonneg _
  have hyabs : (0 : ℤ) ≤ |y1 - y0| := abs_nonneg _
  have hsx : (if x0 < x1 then (1 : ℤ) else -1) = 1 ∨
      (if x0 < x1 then (1 : ℤ) else -1) = -1 := by split_ifs <;> simp
  have hsy : (if y0 < y1 then (1 : ℤ) else -1) = 1 ∨
      (if y0 < y1 then (1 : ℤ) else -1) = -1 := by split_ifs <;> simp
  have hx : x0 = x1 - (if x0 < x1 then (1 : ℤ) else -1) * |x1 - x0| := by
    split_ifs with hlt
    · rw [abs_of_pos (by omega)]
      ring
    · rw [abs_of_nonpos (by omega)]
      ring
  have hy : y0 = y1 - (if y0 < y1 then (1 : ℤ) else -1) * |y1 - y0| := by
    split_ifs with hlt
    · rw [abs_of_pos (by omega)]
      ring
    · rw [abs_of_nonpos (by omega)]
      ring
  have hnatx : |x1 - x0| = ((x1 - x0).natAbs : ℤ) := Int.abs_eq_natAbs _
  have hnaty : |y1 - y0| = ((y1 - y0).natAbs : ℤ) := Int.abs_eq_natAbs _
  have hmaxx := le_max_left (x1 - x0).natAbs (y1 - y0).natAbs
  have hmaxy := le_max_right (x1 - x0).natAbs (y1 - y0).natAbs
  by_cases hc : |y1 - y0| ≤ |x1 - x0|
  · obtain ⟨hlen, hlast⟩ := bresLoop_majorX x1 y1
      (if x0 < x1 then (1 : ℤ) else -1) (if y0 < y1 then (1 : ℤ) else -1)
      |x1 - x0| |y1 - y0| hsx hsy hyabs hc
      ((max |x1 - x0| |y1 - y0|).toNat + 1) |x1 - x0| |y1 - y0|
      hxabs le_rfl hyabs le_rfl (by linarith)
      (by
        have hmax := le_max_left |x1 - x0| |y1 - y0|
        omega)
    rw [← hx, ← hy,
      show |x1 - x0| - |y1 - y0| - |y1 - y0| * |x1 - x0| +
          |x1 - x0| * |y1 - y0| = |x1 - x0| + -|y1 - y0| by ring] at hlen hlast
    refine ⟨rfl, ?_, ?_⟩
    · unfold bresenham
      dsimp only
      by_cases hA0 : |x1 - x0| = 0
      · have hB0 : |y1 - y0| = 0 := by omega
        have hx1 : x1 - x0 = 0 := abs_eq_zero.mp hA0
        have hy1 : y1 - y0 = 0 := abs_eq_zero.mp hB0
        have hnil : bresLoop x1 y1 (if x0 < x1 then (1 : ℤ) else -1)
            (if y0 < y1 then (1 : ℤ) else -1) |x1 - x0| (-|y1 - y0|)
            ((max |x1 - x0| |y1 - y0|).toNat + 1)
            (x0, y0, |x1 - x0| + -|y1 - y0|) = [] := by
          rw [← List.length_eq_zero, hlen, hA0]
          rfl
        rw [hnil]
        simp only [List.getLast?_singleton, Option.some.injEq, Prod.mk.injEq]
        omega
      · have hlast2 := hlast (by omega)
        have hne : bresLoop x1 y1 (if x0 < x1 then (1 : ℤ) else -1)
            (if y0 < y1 then (1 : ℤ) else -1) |x1 - x0| (-|y1 - y0|)
            ((max |x1 - x0| |y1 - y0|).toNat + 1)
            (x0, y0, |x1 - x0| + -|y1 - y0|) ≠ [] := by
          intro hnil
          rw [hnil] at hlen
          simp at hlen
          omega
        rw [getLast?_cons_of_ne_nil _ hne, hlast2]
    · unfold bresenham
      dsimp only
      rw [List.length_cons, hlen]
      omega
  · obtain ⟨hlen, hlast⟩ := bresLoop_majorY x1 y1
      (if x0 < x1 then (1 : ℤ) else -1) (if y0 < y1 then (1 : ℤ) else -1)
      |x1 - x0| |y1 - y0| hsx hsy hxabs (by omega)
      ((max |x1 - x0| |y1 - y0|).toNat + 1) |x1 - x0| |y1 - y0|
      hxabs le_rfl hyabs le_rfl (by linarith)
      (by
        have hmax := le_max_right |x1 - x0| |y1 - y0|
        omega)
    rw [← hx, ← hy,
      show |x1 - x0| - |y1 - y0| - |y1 - y0| * |x1 - x0| +
          |x1 - x0| * |y1 - y0| = |x1 - x0| + -|y1 - y0| by ring] at hlen hlast
    refine ⟨rfl, ?_, ?_⟩
    · unfold bresenham
      dsimp only
      have hlast2 := hlast (by omega)
      have hne : bresLoop x1 y1 (if x0 < x1 then (1 : ℤ) else -1)
          (if y0 < y1 then (1 : ℤ) else -1) |x1 - x0| (-|y1 - y0|)
          ((max |x1 - x0| |y1 - y0|).toNat + 1)
          (x0, y0, |x1 - x0| + -|y1 - y0|) ≠ [] := by
        intro hnil
        rw [hnil] at hlen
        simp at hlen
        omega
      rw [getLast?_cons_of_ne_nil _ hne, hlast2]
    · unfold bresenham
      dsimp only
      rw [List.length_cons, hlen]
      omega

/-- C2 evidence: in exact arithmetic the triangular conversion's component
sum is always 1 or 2 — forced by the identity
`(x - w)/L + (-x - w)/L = -((2*w)/L)` together with
`⌈a⌉ + ⌈c⌉ ∈ {⌈a + c⌉, ⌈a + c⌉ + 1}` and `⌈-b⌉ = -⌊b⌋`.  The degenerate
sum (0 at the f32 input x = 57/4, y = 16345679/2^22, side_len = 3/2,
where the float code trips its debug assertion) can therefore only arise
from round-off; in the exact model that very input lands on (9, 3, -10),
sum 2. -/
theorem triCoord_new_sum_one_or_two :
    (∀ x y side_len : ℚ,
        (TriCoord.new x y side_len).s + (TriCoord.new x y side_len).t +
            (TriCoord.new x y side_len).u = 1 ∨
          (TriCoord.new x y side_len).s + (TriCoord.new x y side_len).t +
            (TriCoord.new x y side_len).u = 2) ∧
      TriCoord.new (57 / 4) (16345679 / 4194304) (3 / 2) = ⟨9, 3, -10⟩ := by
  constructor
  · intro x y side_len
    unfold TriCoord.new
    dsimp only
    have hac : (x - y * root3 / 3) / side_len +
        (-x - y * root3 / 3) / side_len =
        -((y * root3 * 2 / 3) / side_len) := by ring
    have hlo := Int.ceil_add_le ((x - y * root3 / 3) / side_len)
      ((-x - y * root3 / 3) / side_len)
    rw [hac, Int.ceil_neg] at hlo
    have h1 := Int.ceil_lt_add_one ((x - y * root3 / 3) / side_len)
    have h2 := Int.ceil_lt_add_one ((-x - y * root3 / 3) / side_len)
    have h4 := Int.floor_le ((y * root3 * 2 / 3) / side_len)
    have h5 : (⌈(x - y * root3 / 3) / side_len⌉ : ℚ) +
        ⌈(-x - y * root3 / 3) / side_len⌉ <
        -(⌊(y * root3 * 2 / 3) / side_len⌋ : ℚ) + 2 := by linarith
    have h6 : ⌈(x - y * root3 / 3) / side_len⌉ +
        ⌈(-x - y * root3 / 3) / side_len⌉ <
        -⌊(y * root3 * 2 / 3) / side_len⌋ + 2 := by exact_mod_cast h5
    omega
  · norm_num [TriCoord.new, root3, Int.ceil_neg, TriCoord.mk.injEq]
    norm_num [Int.floor_eq_iff, Int.ceil_eq_iff]

end SpatialHashRepo
